import Mathlib

/-!
Shallow embedding of `QSignalInspector.hpp` (QSignalInspector).

The inspector attaches one `QSignalSpy` per signal of an object and records
every emission into a `QList<QSignalEmissionEvent>`.  We model:

* the Qt meta-object of the inspected object as a `MetaObject`: a method
  count, the method offset of the most-derived class, a classification of
  method indices as signals, and the formal parameter types of each method;
* `QVariant` as a small dynamic-value type, `QSignalSpy` as the list of
  captured argument lists of the watched signal;
* `m_signalSpies : QMap<int, QSharedPointer<QSignalSpy>>` as an association
  list from method index to spy, with `QMap::value` returning `none` for a
  missing key (a null shared pointer in the source);
* the constructor loop and the `signalEmitted()` slot as functions over an
  `InspectorState` (the spy table plus the inherited `QList` of events);
* the undefined behaviour of `signalSpy->at(0)` on an empty (or null) spy as
  a distinguished `HandlerOutcome.oob` outcome, and the failure of
  `Q_ASSERT_X(sender, ...)` as `HandlerOutcome.fatal`.
-/

namespace QSI

/-- The dynamic type tag of a `QVariant` value. -/
inductive QType where
  | tInt
  | tString
  | tBool
deriving DecidableEq, Repr

/-- A `QVariant`: a dynamically typed argument value of a signal emission. -/
inductive QVariant where
  | vInt (n : Int)
  | vString (s : String)
  | vBool (b : Bool)
deriving DecidableEq, Repr

/-- The dynamic type of a `QVariant`. -/
def QVariant.typeOf : QVariant → QType
  | .vInt _ => .tInt
  | .vString _ => .tString
  | .vBool _ => .tBool

/-- A `QSignalSpy`: the list of captured argument lists of the signal it
watches, oldest first (`QSignalSpy` is a `QList<QList<QVariant>>`;
`count()` is its length, `at(0)` its head, `clear()` empties it). -/
abbrev Spy := List (List QVariant)

/-- The meta-object of the inspected object: `methodCount()`,
`methodOffset()` (the index of the first method declared by the exact
dynamic type; smaller indices are ancestor-declared), the classification
`method(i).methodType() == QMetaMethod::Signal`, and the formal parameter
types of method `i`.  Within a single object a method is identified by its
stable index, which is how the source keys `m_signalSpies`. -/
structure MetaObject where
  methodCount : Nat
  methodOffset : Nat
  isSignal : Nat → Bool
  paramTypes : Nat → List QType

/-- One record of the emission log, `struct QSignalEmissionEvent`:
the signal (as its method index in the sender's meta-object), the
timestamp, and the parameter values of the emission. -/
structure QSignalEmissionEvent where
  signal : Nat
  timestamp : Nat
  parameters : List QVariant
deriving DecidableEq, Repr

/-- The mutable state of a `QSignalInspector`: the spy table
`m_signalSpies` (an association list mirroring `QMap<int, spy>`) and the
inherited `QList<QSignalEmissionEvent>` log. -/
structure InspectorState where
  spies : List (Nat × Spy)
  log : List QSignalEmissionEvent
deriving DecidableEq, Repr

/-- The `QMap::value(k)` lookup: the value stored at key `k`, or `none` (a null
`QSharedPointer` in the source) when the key is absent. -/
def qmapValue (spies : List (Nat × Spy)) (k : Nat) : Option Spy :=
  match spies with
  | [] => none
  | p :: rest => if p.1 = k then some p.2 else qmapValue rest k

/-- The spy attached to signal `k` captures one more emission with
arguments `args` (what `QSignalSpy` does when its signal fires). -/
def spyAppend (spies : List (Nat × Spy)) (k : Nat) (args : List QVariant) :
    List (Nat × Spy) :=
  spies.map (fun p => if p.1 = k then (p.1, p.2 ++ [args]) else p)

/-- Clearing, `signalSpy->clear()`, applied to the spy stored at key `k`. -/
def spyClear (spies : List (Nat × Spy)) (k : Nat) : List (Nat × Spy) :=
  spies.map (fun p => if p.1 = k then (p.1, ([] : Spy)) else p)

/-- The method indices visited by the constructor loop that are signals:
`methodIndex` starts at `0` when `includeParentClassSignals` and at
`metaObject->methodOffset()` otherwise, and runs to
`metaObject->methodCount() - 1`.  These are the discovered signals; the
constructor creates one `QSignalSpy` and one connection for each. -/
def discoveredSignals (m : MetaObject) (includeParentClassSignals : Bool) :
    List Nat :=
  (List.range' (if includeParentClassSignals then 0 else m.methodOffset)
      (m.methodCount - (if includeParentClassSignals then 0 else m.methodOffset))).filter
    m.isSignal

/-- The state built by the constructor
`QSignalInspector(object, includeParentClassSignals)`: one fresh (empty)
spy per discovered signal, keyed by its method index, and an empty log. -/
def construct (m : MetaObject) (includeParentClassSignals : Bool) :
    InspectorState :=
  { spies := (discoveredSignals m includeParentClassSignals).map
      (fun i => (i, ([] : Spy)))
    log := [] }

/-- Outcome of the scan loop inside `signalEmitted()`. -/
inductive ScanResult where
  /-- A signal with no spy in the table was reached:
  `qWarning("QSignalInspector: Unexpected signal emitted"); return;`. -/
  | unexpected
  /-- The loop ran past the last method index without breaking. -/
  | fellThrough
  /-- Break at `signalIndex` with the local variable `signalSpy`
  holding the spy found there (its `count()` is positive). -/
  | found (signalIndex : Nat) (signalSpy : Spy)
deriving DecidableEq, Repr

/-- The `for (; signalIndex < metaObject->methodCount(); ++signalIndex)`
loop of `signalEmitted()`, with `fuel = methodCount - signalIndex`
iterations remaining at position `i`: skip non-signal methods, return with
a warning when a signal has no spy, break at the first spy with a positive
count. -/
def scanFrom (m : MetaObject) (spies : List (Nat × Spy)) :
    Nat → Nat → ScanResult
  | 0, _ => ScanResult.fellThrough
  | fuel + 1, i =>
    if m.isSignal i = true then
      match qmapValue spies i with
      | none => ScanResult.unexpected
      | some s =>
        if 0 < s.length then ScanResult.found i s
        else scanFrom m spies fuel (i + 1)
    else scanFrom m spies fuel (i + 1)

/-- The whole scan: `signalIndex` starts at `0`. -/
def scanSpies (m : MetaObject) (spies : List (Nat × Spy)) : ScanResult :=
  scanFrom m spies m.methodCount 0

/-- Result of one invocation of the `signalEmitted()` slot. -/
inductive HandlerOutcome where
  /-- The `Q_ASSERT_X(sender, ...)` assertion failed: no sender available. -/
  | fatal
  /-- A `qWarning` was issued and the slot returned; the carried state is
  the inspector's state at that point (its log unchanged). -/
  | unexpectedSignal (st : InspectorState)
  /-- Undefined behaviour: the loop fell through and the slot evaluates
  `signalSpy->at(0)` on an empty spy (or on a null pointer when no signal
  was scanned at all) and `metaObject->method(signalIndex)` at
  `signalIndex = methodCount`. -/
  | oob
  /-- The slot appended one `QSignalEmissionEvent` and cleared the
  selected spy. -/
  | ok (st : InspectorState)
deriving DecidableEq, Repr

/-- The slot `signalEmitted()`.  `sender` is `this->sender()` together
with its meta-object (`none` models a null sender); `now` is
`QDateTime::currentDateTime()`.  Scan all method indices of the sender's
meta-object for the first signal whose spy caught an emission, read its
oldest captured argument list, append a `QSignalEmissionEvent`, and clear
that spy. -/
def signalEmitted (sender : Option MetaObject) (now : Nat)
    (st : InspectorState) : HandlerOutcome :=
  match sender with
  | none => HandlerOutcome.fatal
  | some m =>
    match scanSpies m st.spies with
    | ScanResult.unexpected => HandlerOutcome.unexpectedSignal st
    | ScanResult.fellThrough => HandlerOutcome.oob
    | ScanResult.found signalIndex signalSpy =>
      match signalSpy.head? with
      | none => HandlerOutcome.oob
      | some signalParameters =>
        HandlerOutcome.ok
          { spies := spyClear st.spies signalIndex
            log := st.log ++
              [{ signal := signalIndex
                 timestamp := now
                 parameters := signalParameters }] }

/-- One emission of a signal of the inspected object: the signal's method
index and the concrete argument values passed. -/
structure Emission where
  signalIndex : Nat
  args : List QVariant
deriving DecidableEq, Repr

/-- Synchronous dispatch of one emission: the spy attached to the emitted
signal captures the arguments, then the connected `signalEmitted()` slot
runs with the inspected object as sender. -/
def dispatchEmission (m : MetaObject) (e : Emission) (now : Nat)
    (st : InspectorState) : HandlerOutcome :=
  signalEmitted (some m) now
    { st with spies := spyAppend st.spies e.signalIndex e.args }

/-- Run a sequence of emissions with synchronous dispatch on a single
thread, the clock ticking once per emission.  After a `qWarning` the slot
returns and execution continues; an assertion failure or undefined
behaviour stops the run (`none`). -/
def runEmissions (m : MetaObject) :
    List Emission → Nat → InspectorState → Option InspectorState
  | [], _, st => some st
  | e :: es, now, st =>
    match dispatchEmission m e now st with
    | HandlerOutcome.ok st' => runEmissions m es (now + 1) st'
    | HandlerOutcome.unexpectedSignal st' => runEmissions m es (now + 1) st'
    | _ => none

/-- The log a sequence of emissions should produce: one record per
emission, in order, with that emission's signal and arguments. -/
def expectedLog (now : Nat) : List Emission → List QSignalEmissionEvent
  | [] => []
  | e :: es =>
    { signal := e.signalIndex, timestamp := now, parameters := e.args } ::
      expectedLog (now + 1) es

/-- Every spy in the table is drained (no pending captured emission). -/
abbrev SpiesEmpty (spies : List (Nat × Spy)) : Prop :=
  ∀ p ∈ spies, p.2 = ([] : Spy)

/-- Every table entry is keyed by a valid signal method index. -/
abbrev SpiesWF (m : MetaObject) (spies : List (Nat × Spy)) : Prop :=
  ∀ p ∈ spies, p.1 < m.methodCount ∧ m.isSignal p.1 = true

/-- Every signal of the meta-object has a spy in the table (what
construction with `includeParentClassSignals = true` establishes). -/
abbrev SpiesComplete (m : MetaObject) (spies : List (Nat × Spy)) : Prop :=
  ∀ j, j < m.methodCount → m.isSignal j = true →
    (qmapValue spies j).isSome = true

/-- Every registered handle reports a zero pending count. -/
def AllHandlesEmpty (spies : List (Nat × Spy)) : Prop :=
  ∀ j s, qmapValue spies j = some s → s = []

/-- Every argument list captured by the spy at key `i` matches the formal
parameter types of method `i` (the host guarantee of `QSignalSpy`). -/
abbrev SpiesTyped (m : MetaObject) (spies : List (Nat × Spy)) : Prop :=
  ∀ p ∈ spies, ∀ a ∈ p.2, a.map QVariant.typeOf = m.paramTypes p.1

/-- Every record of the log has arguments matching the formal parameter
list of its recorded signal identity. -/
abbrev LogTyped (m : MetaObject) (log : List QSignalEmissionEvent) : Prop :=
  ∀ r ∈ log, r.parameters.map QVariant.typeOf = m.paramTypes r.signal

/-- A concrete meta-object used to evaluate the theorems: six methods,
method offset `3` (methods `0`–`2` are ancestor-declared), signals at
indices `1` (ancestor-declared), `3` and `4`; signal `3` takes an
`int` and a string. -/
def mW : MetaObject :=
  { methodCount := 6
    methodOffset := 3
    isSignal := fun i => i == 1 || i == 3 || i == 4
    paramTypes := fun i => if i == 3 then [QType.tInt, QType.tString] else [] }

/-- A concrete emission sequence on `mW`: signal `3` with `(42, "x")`,
then signal `1` with no arguments. -/
def esW : List Emission :=
  [{ signalIndex := 3, args := [QVariant.vInt 42, QVariant.vString "x"] },
   { signalIndex := 1, args := [] }]

/-- A concrete inspector state on `mW` in which the spy of signal `3`
holds one captured emission `(42, "x")` and all other spies are empty. -/
def stW : InspectorState :=
  { spies := [(1, []), (3, [[QVariant.vInt 42, QVariant.vString "x"]]), (4, [])]
    log := [] }

/-- The state `signalEmitted` produces from `stW`: the emission of signal
`3` has been drained into one log record. -/
def stW' : InspectorState :=
  { spies := [(1, []), (3, []), (4, [])]
    log := [{ signal := 3, timestamp := 5
              parameters := [QVariant.vInt 42, QVariant.vString "x"] }] }

/-- A concrete inspector state on `mW` as built with
`includeParentClassSignals = false` (no handle for ancestor signal 1),
with one captured emission pending on signal 3. -/
def stW5 : InspectorState :=
  { spies := [(3, [[QVariant.vBool true]]), (4, [])]
    log := [] }

theorem qmapValue_spyAppend (spies : List (Nat × Spy)) (k : Nat)
    (a : List QVariant) (j : Nat) :
    qmapValue (spyAppend spies k a) j =
      if j = k then (qmapValue spies j).map (fun v => v ++ [a])
      else qmapValue spies j := by
  induction spies with
  | nil => simp [spyAppend, qmapValue]
  | cons p rest ih =>
    by_cases hpj : p.1 = j <;> by_cases hjk : j = k <;> by_cases hpk : p.1 = k <;>
      simp_all [spyAppend, qmapValue]

theorem qmapValue_spyClear (spies : List (Nat × Spy)) (k : Nat) (j : Nat) :
    qmapValue (spyClear spies k) j =
      if j = k then (qmapValue spies j).map (fun _ => ([] : Spy))
      else qmapValue spies j := by
  induction spies with
  | nil => simp [spyClear, qmapValue]
  | cons p rest ih =>
    by_cases hpj : p.1 = j <;> by_cases hjk : j = k <;> by_cases hpk : p.1 = k <;>
      simp_all [spyClear, qmapValue]

theorem qmapValue_mem (spies : List (Nat × Spy)) (k : Nat) (v : Spy)
    (h : qmapValue spies k = some v) : (k, v) ∈ spies := by
  induction spies with
  | nil => simp [qmapValue] at h
  | cons p rest ih =>
    rw [qmapValue] at h
    by_cases hpk : p.1 = k
    · rw [if_pos hpk] at h
      cases p
      simp_all
    · rw [if_neg hpk] at h
      exact List.mem_cons_of_mem _ (ih h)

theorem qmapValue_keys (keys : List Nat) (j : Nat) :
    qmapValue (keys.map (fun i => (i, ([] : Spy)))) j =
      if j ∈ keys then some [] else none := by
  induction keys with
  | nil => simp [qmapValue]
  | cons i rest ih =>
    by_cases hij : i = j
    · subst hij
      simp [qmapValue]
    · have hji : ¬j = i := fun h => hij h.symm
      simp [qmapValue, hij, hji, ih]

theorem keys_spyAppend (spies : List (Nat × Spy)) (k : Nat)
    (a : List QVariant) :
    (spyAppend spies k a).map Prod.fst = spies.map Prod.fst := by
  induction spies with
  | nil => rfl
  | cons p rest ih =>
    by_cases hpk : p.1 = k <;> simp_all [spyAppend]

theorem scanFrom_succ_not_signal (m : MetaObject) (spies : List (Nat × Spy))
    (n i : Nat) (h : ¬m.isSignal i = true) :
    scanFrom m spies (n + 1) i = scanFrom m spies n (i + 1) := by
  rw [scanFrom, if_neg h]

theorem scanFrom_succ_none (m : MetaObject) (spies : List (Nat × Spy))
    (n i : Nat) (hs : m.isSignal i = true) (h : qmapValue spies i = none) :
    scanFrom m spies (n + 1) i = ScanResult.unexpected := by
  rw [scanFrom, if_pos hs, h]

theorem scanFrom_succ_some (m : MetaObject) (spies : List (Nat × Spy))
    (n i : Nat) (sp : Spy) (hs : m.isSignal i = true)
    (h : qmapValue spies i = some sp) :
    scanFrom m spies (n + 1) i =
      if 0 < sp.length then ScanResult.found i sp
      else scanFrom m spies n (i + 1) := by
  rw [scanFrom, if_pos hs, h]

theorem scanFrom_found_spec (m : MetaObject) (spies : List (Nat × Spy)) :
    ∀ fuel i t s, scanFrom m spies fuel i = ScanResult.found t s →
      i ≤ t ∧ t < i + fuel ∧ m.isSignal t = true ∧
      qmapValue spies t = some s ∧ s ≠ [] ∧
      ∀ j, i ≤ j → j < t → m.isSignal j = true → qmapValue spies j = some [] := by
  intro fuel
  induction fuel with
  | zero =>
    intro i t s h
    simp [scanFrom] at h
  | succ n ih =>
    intro i t s h
    by_cases hsig : m.isSignal i = true
    · cases hval : qmapValue spies i with
      | none =>
        rw [scanFrom_succ_none m spies n i hsig hval] at h
        cases h
      | some sp =>
        rw [scanFrom_succ_some m spies n i sp hsig hval] at h
        by_cases hlen : 0 < sp.length
        · rw [if_pos hlen] at h
          injection h with ht hs
          subst ht
          subst hs
          refine ⟨Nat.le_refl _, by omega, hsig, hval, ?_, ?_⟩
          · intro hnil
            rw [hnil] at hlen
            simp at hlen
          · intro j h1 h2 _
            omega
        · rw [if_neg hlen] at h
          obtain ⟨h1, h2, h3, h4, h5, h6⟩ := ih (i + 1) t s h
          have hsp : sp = [] := List.eq_nil_of_length_eq_zero (by omega)
          refine ⟨by omega, by omega, h3, h4, h5, ?_⟩
          intro j hij hjt hsj
          by_cases hji : j = i
          · subst hji
            rw [hval, hsp]
          · exact h6 j (by omega) hjt hsj
    · rw [scanFrom_succ_not_signal m spies n i hsig] at h
      obtain ⟨h1, h2, h3, h4, h5, h6⟩ := ih (i + 1) t s h
      refine ⟨by omega, by omega, h3, h4, h5, ?_⟩
      intro j hij hjt hsj
      by_cases hji : j = i
      · subst hji
        exact absurd hsj hsig
      · exact h6 j (by omega) hjt hsj

theorem scanFrom_reaches_found (m : MetaObject) (spies : List (Nat × Spy)) :
    ∀ fuel i t s, i ≤ t → t < i + fuel → m.isSignal t = true →
      qmapValue spies t = some s → s ≠ [] →
      (∀ j, i ≤ j → j < t → m.isSignal j = true → qmapValue spies j = some []) →
      scanFrom m spies fuel i = ScanResult.found t s := by
  intro fuel
  induction fuel with
  | zero =>
    intro i t s h1 h2
    omega
  | succ n ih =>
    intro i t s h1 h2 h3 h4 h5 h6
    by_cases hit : i = t
    · subst hit
      rw [scanFrom_succ_some m spies n i s h3 h4]
      rw [if_pos (by cases s with | nil => exact absurd rfl h5 | cons a l => simp)]
    · by_cases hsig : m.isSignal i = true
      · have hvi : qmapValue spies i = some [] := h6 i (Nat.le_refl _) (by omega) hsig
        rw [scanFrom_succ_some m spies n i [] hsig hvi, if_neg (by simp)]
        exact ih (i + 1) t s (by omega) (by omega) h3 h4 h5
          (fun j ha hb hc => h6 j (by omega) hb hc)
      · rw [scanFrom_succ_not_signal m spies n i hsig]
        exact ih (i + 1) t s (by omega) (by omega) h3 h4 h5
          (fun j ha hb hc => h6 j (by omega) hb hc)

theorem scanFrom_fellThrough_iff (m : MetaObject) (spies : List (Nat × Spy)) :
    ∀ fuel i, scanFrom m spies fuel i = ScanResult.fellThrough ↔
      ∀ j, i ≤ j → j < i + fuel → m.isSignal j = true →
        qmapValue spies j = some [] := by
  intro fuel
  induction fuel with
  | zero =>
    intro i
    constructor
    · intro _ j h1 h2
      omega
    · intro _
      rfl
  | succ n ih =>
    intro i
    by_cases hsig : m.isSignal i = true
    · cases hval : qmapValue spies i with
      | none =>
        rw [scanFrom_succ_none m spies n i hsig hval]
        constructor
        · intro h
          cases h
        · intro h
          have := h i (Nat.le_refl _) (by omega) hsig
          rw [hval] at this
          cases this
      | some sp =>
        rw [scanFrom_succ_some m spies n i sp hsig hval]
        by_cases hlen : 0 < sp.length
        · rw [if_pos hlen]
          constructor
          · intro h
            cases h
          · intro h
            have := h i (Nat.le_refl _) (by omega) hsig
            rw [hval] at this
            injection this with he
            rw [he] at hlen
            simp at hlen
        · rw [if_neg hlen]
          have hsp : sp = [] := List.eq_nil_of_length_eq_zero (by omega)
          rw [ih (i + 1)]
          constructor
          · intro h j h1 h2 h3
            by_cases hji : j = i
            · subst hji
              rw [hval, hsp]
            · exact h j (by omega) (by omega) h3
          · intro h j h1 h2 h3
            exact h j (by omega) (by omega) h3
    · rw [scanFrom_succ_not_signal m spies n i hsig]
      rw [ih (i + 1)]
      constructor
      · intro h j h1 h2 h3
        by_cases hji : j = i
        · subst hji
          exact absurd h3 hsig
        · exact h j (by omega) (by omega) h3
      · intro h j h1 h2 h3
        exact h j (by omega) (by omega) h3

theorem scanFrom_reaches_unexpected (m : MetaObject) (spies : List (Nat × Spy)) :
    ∀ fuel i t, i ≤ t → t < i + fuel → m.isSignal t = true →
      qmapValue spies t = none →
      (∀ j, i ≤ j → j < t → m.isSignal j = true → qmapValue spies j = some []) →
      scanFrom m spies fuel i = ScanResult.unexpected := by
  intro fuel
  induction fuel with
  | zero =>
    intro i t h1 h2
    omega
  | succ n ih =>
    intro i t h1 h2 h3 h4 h5
    by_cases hit : i = t
    · subst hit
      exact scanFrom_succ_none m spies n i h3 h4
    · by_cases hsig : m.isSignal i = true
      · have hvi : qmapValue spies i = some [] := h5 i (Nat.le_refl _) (by omega) hsig
        rw [scanFrom_succ_some m spies n i [] hsig hvi, if_neg (by simp)]
        exact ih (i + 1) t (by omega) (by omega) h3 h4
          (fun j ha hb hc => h5 j (by omega) hb hc)
      · rw [scanFrom_succ_not_signal m spies n i hsig]
        exact ih (i + 1) t (by omega) (by omega) h3 h4
          (fun j ha hb hc => h5 j (by omega) hb hc)

theorem spiesEmpty_lookup (spies : List (Nat × Spy)) (j : Nat) (s : Spy)
    (hemp : SpiesEmpty spies) (h : qmapValue spies j = some s) : s = [] :=
  hemp (j, s) (qmapValue_mem spies j s h)

theorem spiesWF_lookup (m : MetaObject) (spies : List (Nat × Spy)) (j : Nat)
    (s : Spy) (hwf : SpiesWF m spies) (h : qmapValue spies j = some s) :
    j < m.methodCount ∧ m.isSignal j = true :=
  hwf (j, s) (qmapValue_mem spies j s h)

theorem spiesTyped_lookup (m : MetaObject) (spies : List (Nat × Spy))
    (j : Nat) (s : Spy) (a : List QVariant) (hty : SpiesTyped m spies)
    (h : qmapValue spies j = some s) (ha : a ∈ s) :
    a.map QVariant.typeOf = m.paramTypes j :=
  hty (j, s) (qmapValue_mem spies j s h) a ha

theorem signalEmitted_ok_inversion (m : MetaObject) (now : Nat)
    (st st' : InspectorState)
    (hok : signalEmitted (some m) now st = HandlerOutcome.ok st') :
    ∃ t s a, t < m.methodCount ∧ m.isSignal t = true ∧
      qmapValue st.spies t = some s ∧ s.head? = some a ∧ s ≠ [] ∧
      (∀ j, j < t → m.isSignal j = true → qmapValue st.spies j = some []) ∧
      st' = { spies := spyClear st.spies t
              log := st.log ++
                [{ signal := t, timestamp := now, parameters := a }] } := by
  rw [signalEmitted.eq_def] at hok
  dsimp only at hok
  split at hok
  · cases hok
  · cases hok
  · rename_i t s hscan
    split at hok
    · cases hok
    · rename_i a hhead
      injection hok with hst
      obtain ⟨h1, h2, h3, h4, h5, h6⟩ :=
        scanFrom_found_spec m st.spies m.methodCount 0 t s hscan
      exact ⟨t, s, a, by omega, h3, h4, hhead, h5,
        fun j hj hsj => h6 j (Nat.zero_le _) hj hsj, hst.symm⟩

theorem signalEmitted_unexpected_inversion (sender : Option MetaObject)
    (now : Nat) (st st2 : InspectorState)
    (h : signalEmitted sender now st = HandlerOutcome.unexpectedSignal st2) :
    st2 = st := by
  cases sender with
  | none => cases h
  | some m =>
    rw [signalEmitted.eq_def] at h
    dsimp only at h
    split at h
    · injection h with h2
      exact h2.symm
    · cases h
    · split at h
      · cases h
      · cases h

theorem signalEmitted_unexpected_of (m : MetaObject) (now : Nat)
    (st : InspectorState) (t : Nat) (ht : t < m.methodCount)
    (hsig : m.isSignal t = true) (hmiss : qmapValue st.spies t = none)
    (hbefore : ∀ j, j < t → m.isSignal j = true →
      qmapValue st.spies j = some []) :
    signalEmitted (some m) now st = HandlerOutcome.unexpectedSignal st := by
  have hscan : scanSpies m st.spies = ScanResult.unexpected :=
    scanFrom_reaches_unexpected m st.spies m.methodCount 0 t (Nat.zero_le _)
      (by omega) hsig hmiss (fun j h1 h2 h3 => hbefore j h2 h3)
  rw [signalEmitted.eq_def]
  dsimp only
  rw [hscan]

theorem signalEmitted_not_fatal (m : MetaObject) (now : Nat)
    (st : InspectorState) :
    signalEmitted (some m) now st ≠ HandlerOutcome.fatal := by
  rw [signalEmitted.eq_def]
  dsimp only
  split
  · intro h
    cases h
  · intro h
    cases h
  · split
    · intro h
      cases h
    · intro h
      cases h

theorem dispatch_ok_step (m : MetaObject) (st : InspectorState)
    (e : Emission) (now : Nat)
    (hcomp : SpiesComplete m st.spies) (hemp : SpiesEmpty st.spies)
    (hi : e.signalIndex < m.methodCount)
    (hsig : m.isSignal e.signalIndex = true) :
    dispatchEmission m e now st =
      HandlerOutcome.ok
        { spies := spyClear (spyAppend st.spies e.signalIndex e.args)
            e.signalIndex
          log := st.log ++
            [{ signal := e.signalIndex, timestamp := now
               parameters := e.args }] } := by
  obtain ⟨i, args⟩ := e
  dsimp only at hi hsig ⊢
  obtain ⟨s0, hs0⟩ : ∃ s0, qmapValue st.spies i = some s0 := by
    have := hcomp i hi hsig
    cases hval : qmapValue st.spies i with
    | none => rw [hval] at this; cases this
    | some s0 => exact ⟨s0, rfl⟩
  have hs0e : s0 = [] := spiesEmpty_lookup st.spies i s0 hemp hs0
  have hvi : qmapValue (spyAppend st.spies i args) i = some [args] := by
    rw [qmapValue_spyAppend, if_pos rfl, hs0, hs0e]
    rfl
  have hbefore : ∀ j, 0 ≤ j → j < i → m.isSignal j = true →
      qmapValue (spyAppend st.spies i args) j = some [] := by
    intro j _ hji hsj
    rw [qmapValue_spyAppend, if_neg (by omega)]
    obtain ⟨sj, hsj'⟩ : ∃ sj, qmapValue st.spies j = some sj := by
      have := hcomp j (by omega) hsj
      cases hval : qmapValue st.spies j with
      | none => rw [hval] at this; cases this
      | some sj => exact ⟨sj, rfl⟩
    rw [hsj', spiesEmpty_lookup st.spies j sj hemp hsj']
  have hscan : scanSpies m (spyAppend st.spies i args) = ScanResult.found i [args] :=
    scanFrom_reaches_found m (spyAppend st.spies i args) m.methodCount 0 i
      [args] (Nat.zero_le _) (by omega) hsig hvi (by simp) hbefore
  rw [dispatchEmission, signalEmitted.eq_def]
  dsimp only
  rw [hscan]
  rfl


theorem spyAppend_fst (spies : List (Nat × Spy)) (k : Nat)
    (a : List QVariant) (p : Nat × Spy) (hp : p ∈ spyAppend spies k a) :
    ∃ r ∈ spies, p.1 = r.1 := by
  obtain ⟨r, hr, hpr⟩ := List.mem_map.mp hp
  refine ⟨r, hr, ?_⟩
  subst hpr
  by_cases hrk : r.1 = k <;> simp [hrk]

theorem spiesEmpty_clear_append (spies : List (Nat × Spy)) (k : Nat)
    (a : List QVariant) (h : SpiesEmpty spies) :
    SpiesEmpty (spyClear (spyAppend spies k a) k) := by
  intro p hp
  rw [spyClear, spyAppend, List.map_map] at hp
  obtain ⟨r, hr, hpr⟩ := List.mem_map.mp hp
  subst hpr
  by_cases hrk : r.1 = k <;> simp [Function.comp, hrk]
  exact h r hr

theorem qmapValue_clear_append_self (spies : List (Nat × Spy)) (k : Nat)
    (a : List QVariant) (j : Nat) :
    qmapValue (spyClear (spyAppend spies k a) k) j =
      if j = k then (qmapValue spies j).map (fun _ => ([] : Spy))
      else qmapValue spies j := by
  rw [qmapValue_spyClear, qmapValue_spyAppend]
  by_cases hjk : j = k
  · rw [if_pos hjk, if_pos hjk, if_pos hjk]
    cases qmapValue spies j <;> rfl
  · rw [if_neg hjk, if_neg hjk, if_neg hjk]

theorem spiesComplete_clear_append (m : MetaObject)
    (spies : List (Nat × Spy)) (k : Nat) (a : List QVariant)
    (h : SpiesComplete m spies) :
    SpiesComplete m (spyClear (spyAppend spies k a) k) := by
  intro j hj hsj
  rw [qmapValue_clear_append_self]
  by_cases hjk : j = k
  · rw [if_pos hjk]
    have := h j hj hsj
    cases hval : qmapValue spies j with
    | none => rw [hval] at this; cases this
    | some s => rfl
  · rw [if_neg hjk]
    exact h j hj hsj

theorem expectedLog_length (now : Nat) (es : List Emission) :
    (expectedLog now es).length = es.length := by
  induction es generalizing now with
  | nil => rfl
  | cons e es ih => simp [expectedLog, ih]

theorem runEmissions_spec (m : MetaObject) (es : List Emission) :
    ∀ now st, SpiesComplete m st.spies → SpiesEmpty st.spies →
      (∀ e ∈ es, e.signalIndex < m.methodCount ∧
        m.isSignal e.signalIndex = true) →
      ∃ st', runEmissions m es now st = some st' ∧
        st'.log = st.log ++ expectedLog now es ∧
        SpiesComplete m st'.spies ∧ SpiesEmpty st'.spies := by
  induction es with
  | nil =>
    intro now st h1 h2 h3
    exact ⟨st, rfl, by simp [expectedLog], h1, h2⟩
  | cons e es ih =>
    intro now st h1 h2 h3
    have he := h3 e (List.mem_cons_self e es)
    have hstep := dispatch_ok_step m st e now h1 h2 he.1 he.2
    obtain ⟨st', hrun, hlog, hc, hemp⟩ := ih (now + 1)
      { spies := spyClear (spyAppend st.spies e.signalIndex e.args)
          e.signalIndex
        log := st.log ++
          [{ signal := e.signalIndex, timestamp := now
             parameters := e.args }] }
      (spiesComplete_clear_append m st.spies e.signalIndex e.args h1)
      (spiesEmpty_clear_append st.spies e.signalIndex e.args h2)
      (fun e2 he2 => h3 e2 (List.mem_cons_of_mem _ he2))
    refine ⟨st', ?_, ?_, hc, hemp⟩
    · rw [runEmissions, hstep]
      exact hrun
    · rw [hlog]
      simp [expectedLog]

theorem signalEmitted_own_only (m : MetaObject)
    (hoff : m.methodOffset ≤ m.methodCount)
    (hanc : ∃ j, j < m.methodOffset ∧ m.isSignal j = true)
    (now : Nat) (st : InspectorState)
    (hdom : ∀ p ∈ st.spies, m.methodOffset ≤ p.1) :
    signalEmitted (some m) now st = HandlerOutcome.unexpectedSignal st := by
  obtain ⟨j0, hj0off, hj0sig⟩ := hanc
  have hex : ∃ n, m.isSignal n = true := ⟨j0, hj0sig⟩
  have ht_sig : m.isSignal (Nat.find hex) = true := Nat.find_spec hex
  have ht_le : Nat.find hex ≤ j0 := Nat.find_min' hex hj0sig
  have ht_lt : Nat.find hex < m.methodCount := by omega
  have hmiss : qmapValue st.spies (Nat.find hex) = none := by
    cases hval : qmapValue st.spies (Nat.find hex) with
    | none => rfl
    | some s =>
      have hmem := qmapValue_mem _ _ _ hval
      have := hdom (Nat.find hex, s) hmem
      omega
  have hbefore : ∀ j, j < Nat.find hex → m.isSignal j = true →
      qmapValue st.spies j = some [] := by
    intro j hjt hsj
    exact absurd hsj (Nat.find_min hex hjt)
  exact signalEmitted_unexpected_of m now st (Nat.find hex) ht_lt ht_sig
    hmiss hbefore

theorem runEmissions_own_only (m : MetaObject)
    (hoff : m.methodOffset ≤ m.methodCount)
    (hanc : ∃ j, j < m.methodOffset ∧ m.isSignal j = true)
    (es : List Emission) :
    ∀ now st, (∀ p ∈ st.spies, m.methodOffset ≤ p.1) →
      ∃ st', runEmissions m es now st = some st' ∧ st'.log = st.log := by
  induction es with
  | nil =>
    intro now st hdom
    exact ⟨st, rfl, rfl⟩
  | cons e es ih =>
    intro now st hdom
    have hdom1 : ∀ p ∈ spyAppend st.spies e.signalIndex e.args,
        m.methodOffset ≤ p.1 := by
      intro p hp
      obtain ⟨r, hr, hpr⟩ := spyAppend_fst st.spies e.signalIndex e.args p hp
      rw [hpr]
      exact hdom r hr
    have hstep : dispatchEmission m e now st =
        HandlerOutcome.unexpectedSignal
          { spies := spyAppend st.spies e.signalIndex e.args
            log := st.log } :=
      signalEmitted_own_only m hoff hanc now
        { spies := spyAppend st.spies e.signalIndex e.args, log := st.log }
        hdom1
    obtain ⟨st', hrun, hlog⟩ := ih (now + 1)
      { spies := spyAppend st.spies e.signalIndex e.args, log := st.log }
      hdom1
    refine ⟨st', ?_, hlog⟩
    rw [runEmissions, hstep]
    exact hrun


theorem construct_keys (m : MetaObject) (incl : Bool) :
    (construct m incl).spies.map Prod.fst = discoveredSignals m incl := by
  rw [construct]
  dsimp only
  rw [List.map_map]
  have hid : (Prod.fst ∘ fun i => ((i, ([] : Spy)))) = (id : Nat → Nat) := rfl
  rw [hid, List.map_id]

theorem mem_discoveredSignals_true (m : MetaObject) (i : Nat) :
    i ∈ discoveredSignals m true ↔
      i < m.methodCount ∧ m.isSignal i = true := by
  simp [discoveredSignals, List.mem_filter, List.mem_range'_1]

theorem mem_discoveredSignals_false (m : MetaObject) (i : Nat)
    (hoff : m.methodOffset ≤ m.methodCount) :
    i ∈ discoveredSignals m false ↔
      m.methodOffset ≤ i ∧ i < m.methodCount ∧ m.isSignal i = true := by
  simp only [discoveredSignals, Bool.false_eq_true, if_false,
    List.mem_filter, List.mem_range'_1]
  constructor
  · rintro ⟨⟨h1, h2⟩, h3⟩
    exact ⟨h1, by omega, h3⟩
  · rintro ⟨h1, h2, h3⟩
    exact ⟨⟨h1, by omega⟩, h3⟩

theorem nodup_discoveredSignals (m : MetaObject) (incl : Bool) :
    (discoveredSignals m incl).Nodup :=
  List.Nodup.filter _ (List.nodup_range' _ _)

theorem construct_spiesEmpty (m : MetaObject) (incl : Bool) :
    SpiesEmpty (construct m incl).spies := by
  intro p hp
  simp only [construct] at hp
  obtain ⟨i, hi, hpi⟩ := List.mem_map.mp hp
  rw [← hpi]

theorem construct_lookup (m : MetaObject) (incl : Bool) (j : Nat) :
    qmapValue (construct m incl).spies j =
      if j ∈ discoveredSignals m incl then some [] else none := by
  rw [construct]
  exact qmapValue_keys _ j

theorem construct_complete_true (m : MetaObject) :
    SpiesComplete m (construct m true).spies := by
  intro j hj hsj
  rw [construct_lookup,
    if_pos ((mem_discoveredSignals_true m j).mpr ⟨hj, hsj⟩)]
  rfl

theorem construct_wf_true (m : MetaObject) :
    SpiesWF m (construct m true).spies := by
  intro p hp
  simp only [construct] at hp
  obtain ⟨i, hi, hpi⟩ := List.mem_map.mp hp
  rw [← hpi]
  exact (mem_discoveredSignals_true m i).mp hi

theorem construct_false_dom (m : MetaObject)
    (hoff : m.methodOffset ≤ m.methodCount) :
    ∀ p ∈ (construct m false).spies, m.methodOffset ≤ p.1 := by
  intro p hp
  simp only [construct] at hp
  obtain ⟨i, hi, hpi⟩ := List.mem_map.mp hp
  rw [← hpi]
  exact ((mem_discoveredSignals_false m i hoff).mp hi).1

theorem count_discoveredSignals_true (m : MetaObject) (i : Nat) :
    (discoveredSignals m true).count i =
      if i < m.methodCount ∧ m.isSignal i = true then 1 else 0 := by
  by_cases h : i ∈ discoveredSignals m true
  · rw [if_pos ((mem_discoveredSignals_true m i).mp h)]
    exact List.count_eq_one_of_mem (nodup_discoveredSignals m true) h
  · rw [if_neg (fun hc => h ((mem_discoveredSignals_true m i).mpr hc))]
    exact List.count_eq_zero.mpr h

theorem count_discoveredSignals_false (m : MetaObject) (i : Nat)
    (hoff : m.methodOffset ≤ m.methodCount) :
    (discoveredSignals m false).count i =
      if m.methodOffset ≤ i ∧ i < m.methodCount ∧ m.isSignal i = true
      then 1 else 0 := by
  by_cases h : i ∈ discoveredSignals m false
  · rw [if_pos ((mem_discoveredSignals_false m i hoff).mp h)]
    exact List.count_eq_one_of_mem (nodup_discoveredSignals m false) h
  · rw [if_neg (fun hc => h ((mem_discoveredSignals_false m i hoff).mpr hc))]
    exact List.count_eq_zero.mpr h


/-- Claim C1: for every sequence of k emissions of discovered events on a
single thread with synchronous dispatch, after the last dispatch the log
contains exactly k records, in emission order, each with the argument
values passed at the corresponding emission (and attributed to the emitted
signal, with the clock timestamps). -/
theorem claim_C1_emission_ordering (m : MetaObject) (es : List Emission)
    (now : Nat)
    (hes : ∀ e ∈ es, e.signalIndex < m.methodCount ∧
      m.isSignal e.signalIndex = true) :
    ∃ st', runEmissions m es now (construct m true) = some st' ∧
      st'.log = expectedLog now es ∧ st'.log.length = es.length := by
  obtain ⟨st', h1, h2, h3, h4⟩ := runEmissions_spec m es now
    (construct m true) (construct_complete_true m)
    (construct_spiesEmpty m true) hes
  refine ⟨st', h1, ?_, ?_⟩
  · rw [h2]
    rfl
  · rw [h2]
    simp [construct, expectedLog_length]

/-- Claim C2: whenever an invocation of the generic handler produces a log
record, the recorded event is the first signal in method-enumeration order
(from index 0, non-signal methods skipped) whose observation handle
reports a non-zero captured count: its spy is non-empty, and the spy of
every earlier signal index is present but empty. -/
theorem claim_C2_first_pending_selected (m : MetaObject) (now : Nat)
    (st st2 : InspectorState)
    (hok : signalEmitted (some m) now st = HandlerOutcome.ok st2) :
    ∃ r, st2.log = st.log ++ [r] ∧ r.signal < m.methodCount ∧
      m.isSignal r.signal = true ∧
      (∃ s, qmapValue st.spies r.signal = some s ∧ s ≠ []) ∧
      ∀ j, j < r.signal → m.isSignal j = true →
        qmapValue st.spies j = some [] := by
  obtain ⟨t, s, a, h1, h2, h3, h4, h5, h6, h7⟩ :=
    signalEmitted_ok_inversion m now st st2 hok
  exact ⟨{ signal := t, timestamp := now, parameters := a },
    by rw [h7], h1, h2, ⟨s, h3, h5⟩, h6⟩

/-- Claim C3: with `includeParentClassSignals = false` the constructor
creates exactly one spy and one connection per signal declared at or above
the method offset (the object's own exact type) and none for
ancestor-declared signals (indices below the offset); with `true` it
creates exactly one per signal of the whole meta-object, no signal
observed twice.  Spy-table keys and connections both coincide with
`discoveredSignals`. -/
theorem claim_C3_discovery_completeness (m : MetaObject)
    (hoff : m.methodOffset ≤ m.methodCount) :
    (∀ i, ((construct m false).spies.map Prod.fst).count i =
        if m.methodOffset ≤ i ∧ i < m.methodCount ∧ m.isSignal i = true
        then 1 else 0) ∧
    (∀ i, i < m.methodOffset →
        qmapValue (construct m false).spies i = none) ∧
    (∀ i, ((construct m true).spies.map Prod.fst).count i =
        if i < m.methodCount ∧ m.isSignal i = true then 1 else 0) ∧
    (∀ i, (discoveredSignals m false).count i =
        if m.methodOffset ≤ i ∧ i < m.methodCount ∧ m.isSignal i = true
        then 1 else 0) ∧
    (∀ i, (discoveredSignals m true).count i =
        if i < m.methodCount ∧ m.isSignal i = true then 1 else 0) := by
  refine ⟨?_, ?_, ?_, ?_, ?_⟩
  · intro i
    rw [construct_keys]
    exact count_discoveredSignals_false m i hoff
  · intro i hi
    rw [construct_lookup]
    rw [if_neg (fun hc =>
      by have := ((mem_discoveredSignals_false m i hoff).mp hc).1; omega)]
  · intro i
    rw [construct_keys]
    exact count_discoveredSignals_true m i
  · intro i
    exact count_discoveredSignals_false m i hoff
  · intro i
    exact count_discoveredSignals_true m i

/-- Claim C4: when the inspector is constructed with
`includeParentClassSignals = false` on an object whose ancestors declare at
least one signal (necessarily at an index below the method offset, hence
below every own-type method), every invocation of the generic handler hits
a signal with no spy before reaching any own-type signal, issues the
unexpected-signal warning and returns without appending; consequently no
emission sequence ever produces a log entry in this configuration. -/
theorem claim_C4_own_only_logs_nothing (m : MetaObject)
    (hoff : m.methodOffset ≤ m.methodCount)
    (hanc : ∃ j, j < m.methodOffset ∧ m.isSignal j = true) :
    (∀ now st, (∀ p ∈ st.spies, m.methodOffset ≤ p.1) →
      signalEmitted (some m) now st = HandlerOutcome.unexpectedSignal st) ∧
    (∀ es now, ∃ st',
      runEmissions m es now (construct m false) = some st' ∧
      st'.log = []) := by
  constructor
  · exact fun now st hdom => signalEmitted_own_only m hoff hanc now st hdom
  · intro es now
    obtain ⟨st', h1, h2⟩ := runEmissions_own_only m hoff hanc es now
      (construct m false) (construct_false_dom m hoff)
    exact ⟨st', h1, by rw [h2]; rfl⟩

/-- Claim C5: when the handler's scan reaches a signal for which the spy
table holds no observation handle (all earlier signals have handles that
are empty, so the scan does get there), the handler issues the non-fatal
`qWarning` diagnostic and returns with the state unchanged: the outcome is
`unexpectedSignal st` itself, so no record is appended, the log is exactly
what it was, and neither the assertion-failure nor the undefined-behaviour
outcome occurs. -/
theorem claim_C5_missing_handle_diagnostic (m : MetaObject) (now : Nat)
    (st : InspectorState) (t : Nat) (ht : t < m.methodCount)
    (hsig : m.isSignal t = true) (hmiss : qmapValue st.spies t = none)
    (hbefore : ∀ j, j < t → m.isSignal j = true →
      qmapValue st.spies j = some []) :
    signalEmitted (some m) now st = HandlerOutcome.unexpectedSignal st :=
  signalEmitted_unexpected_of m now st t ht hsig hmiss hbefore

/-- Claim C6: consuming a firing into a log entry leaves the selected
handle with a zero pending count, and a subsequent firing of the same
signal is captured as a new, separate record appended after the first,
not merged with it. -/
theorem claim_C6_idempotent_draining (m : MetaObject) (st : InspectorState)
    (i : Nat) (args1 args2 : List QVariant) (now1 now2 : Nat)
    (hcomp : SpiesComplete m st.spies) (hemp : SpiesEmpty st.spies)
    (hi : i < m.methodCount) (hsig : m.isSignal i = true) :
    ∃ st1 st2,
      dispatchEmission m { signalIndex := i, args := args1 } now1 st =
        HandlerOutcome.ok st1 ∧
      qmapValue st1.spies i = some [] ∧
      dispatchEmission m { signalIndex := i, args := args2 } now2 st1 =
        HandlerOutcome.ok st2 ∧
      st1.log = st.log ++
        [{ signal := i, timestamp := now1, parameters := args1 }] ∧
      st2.log = st.log ++
        [{ signal := i, timestamp := now1, parameters := args1 },
         { signal := i, timestamp := now2, parameters := args2 }] := by
  have h1 := dispatch_ok_step m st { signalIndex := i, args := args1 } now1
    hcomp hemp hi hsig
  have hcomp1 := spiesComplete_clear_append m st.spies i args1 hcomp
  have hemp1 := spiesEmpty_clear_append st.spies i args1 hemp
  have h2 := dispatch_ok_step m
    { spies := spyClear (spyAppend st.spies i args1) i
      log := st.log ++
        [{ signal := i, timestamp := now1, parameters := args1 }] }
    { signalIndex := i, args := args2 } now2 hcomp1 hemp1 hi hsig
  refine ⟨_, _, h1, ?_, h2, rfl, ?_⟩
  · rw [qmapValue_clear_append_self, if_pos rfl]
    have := hcomp i hi hsig
    cases hval : qmapValue st.spies i with
    | none => rw [hval] at this; cases this
    | some s => rfl
  · simp

/-- Claim C7: every record the handler appends has an argument list whose
length and types match the formal parameter list of the recorded signal
identity, provided every spy's captured argument lists match its own
signal's signature (the `QSignalSpy` host guarantee) — the handler reads
the arguments from the handle keyed by the same method index it records
as the event identity. -/
theorem claim_C7_argument_signature_invariant (m : MetaObject) (now : Nat)
    (st st2 : InspectorState) (hty : SpiesTyped m st.spies)
    (hlog : LogTyped m st.log)
    (hok : signalEmitted (some m) now st = HandlerOutcome.ok st2) :
    LogTyped m st2.log := by
  obtain ⟨t, s, a, h1, h2, h3, hhead, h5, h6, h7⟩ :=
    signalEmitted_ok_inversion m now st st2 hok
  intro r hr
  rw [h7] at hr
  dsimp only at hr
  rcases List.mem_append.mp hr with hro | hrn
  · exact hlog r hro
  · have hra : r = { signal := t, timestamp := now, parameters := a } := by
      simpa using hrn
    have ha : a ∈ s := by
      cases s with
      | nil => cases hhead
      | cons x xs =>
        have hx : x = a := by simpa using hhead
        rw [← hx]
        exact List.mem_cons_self x xs
    rw [hra]
    exact spiesTyped_lookup m st.spies t s a hty h3 ha

/-- Claim C8: the log is empty when construction completes, and every
handler invocation either leaves the log unchanged (warning path) or
appends exactly one record at its end (success path); no existing record
is modified or removed, so the log grows monotonically in observation
order. -/
theorem claim_C8_log_append_only (m : MetaObject) (incl : Bool) :
    (construct m incl).log = [] ∧
    (∀ sender now st st2,
      signalEmitted sender now st = HandlerOutcome.unexpectedSignal st2 →
      st2.log = st.log) ∧
    (∀ sender now st st2,
      signalEmitted sender now st = HandlerOutcome.ok st2 →
      ∃ r, st2.log = st.log ++ [r]) := by
  refine ⟨rfl, ?_, ?_⟩
  · intro sender now st st2 h
    rw [signalEmitted_unexpected_inversion sender now st st2 h]
  · intro sender now st st2 h
    cases sender with
    | none => cases h
    | some mo =>
      obtain ⟨t, s, a, _, _, _, _, _, _, h7⟩ :=
        signalEmitted_ok_inversion mo now st st2 h
      exact ⟨{ signal := t, timestamp := now, parameters := a }, by rw [h7]⟩

/-- Claim C9: for a well-formed spy table that covers every signal (the
table discovery builds with ancestors included), the handler falls off the
end of the scan and performs the out-of-bounds `signalSpy->at(0)` read
(and reads a method identity at the out-of-range index `methodCount`)
exactly when every registered observation handle reports a zero pending
count; equivalently, the out-of-bounds access is unreachable precisely
when some registered handle has a pending firing. -/
theorem claim_C9_oob_iff_no_pending (m : MetaObject) (now : Nat)
    (st : InspectorState) (hwf : SpiesWF m st.spies)
    (hcomp : SpiesComplete m st.spies) :
    signalEmitted (some m) now st = HandlerOutcome.oob ↔
      AllHandlesEmpty st.spies := by
  constructor
  · intro hoob
    rw [signalEmitted.eq_def] at hoob
    dsimp only at hoob
    split at hoob
    · cases hoob
    · rename_i hscan
      intro j s hjs
      obtain ⟨hj, hsj⟩ := spiesWF_lookup m st.spies j s hwf hjs
      have := (scanFrom_fellThrough_iff m st.spies m.methodCount 0).mp hscan
        j (Nat.zero_le _) (by omega) hsj
      rw [hjs] at this
      injection this
    · rename_i t s hscan
      obtain ⟨_, _, _, _, h5, _⟩ :=
        scanFrom_found_spec m st.spies m.methodCount 0 t s hscan
      split at hoob
      · rename_i hhead
        cases s with
        | nil => exact absurd rfl h5
        | cons x xs => cases hhead
      · cases hoob
  · intro hall
    have hscan : scanSpies m st.spies = ScanResult.fellThrough := by
      rw [scanSpies, scanFrom_fellThrough_iff]
      intro j h1 h2 h3
      have hsome := hcomp j (by omega) h3
      cases hval : qmapValue st.spies j with
      | none => rw [hval] at hsome; cases hsome
      | some s => rw [hall j s hval]
    rw [signalEmitted.eq_def]
    dsimp only
    rw [hscan]

/-- Claim C10: a handler invocation without an identifiable sender fails
the `Q_ASSERT_X` (fatal outcome), and whenever the handler is invoked with
a sender — in particular whenever it is invoked through a connected signal
emission, as `dispatchEmission` models — the assertion holds and the fatal
outcome never occurs. -/
theorem claim_C10_null_sender_asserts (m : MetaObject) :
    (∀ now st, signalEmitted none now st = HandlerOutcome.fatal) ∧
    (∀ now st, signalEmitted (some m) now st ≠ HandlerOutcome.fatal) ∧
    (∀ e now st, dispatchEmission m e now st ≠ HandlerOutcome.fatal) := by
  refine ⟨fun now st => rfl, fun now st => signalEmitted_not_fatal m now st,
    fun e now st => signalEmitted_not_fatal m now _⟩


/-- Witness for C1 at the concrete `mW`, `esW`. -/
theorem claim_C1_emission_ordering_witness :
    ∃ st', runEmissions mW esW 0 (construct mW true) = some st' ∧
      st'.log = expectedLog 0 esW ∧ st'.log.length = esW.length :=
  claim_C1_emission_ordering mW esW 0 (by decide)

/-- Witness for C2 at the concrete `mW`, `stW`. -/
theorem claim_C2_first_pending_selected_witness :
    ∃ r, stW'.log = stW.log ++ [r] ∧ r.signal < mW.methodCount ∧
      mW.isSignal r.signal = true ∧
      (∃ s, qmapValue stW.spies r.signal = some s ∧ s ≠ []) ∧
      ∀ j, j < r.signal → mW.isSignal j = true →
        qmapValue stW.spies j = some [] :=
  claim_C2_first_pending_selected mW 5 stW stW' (by decide)

/-- Witness for C3 at the concrete `mW`. -/
theorem claim_C3_discovery_completeness_witness :
    ((construct mW false).spies.map Prod.fst).count 3 = 1 ∧
    qmapValue (construct mW false).spies 1 = none ∧
    ((construct mW true).spies.map Prod.fst).count 1 = 1 := by
  have h := claim_C3_discovery_completeness mW (by decide)
  refine ⟨?_, h.2.1 1 (by decide), ?_⟩
  · have h1 := h.1 3
    rw [if_pos (by decide)] at h1
    exact h1
  · have h2 := h.2.2.1 1
    rw [if_pos (by decide)] at h2
    exact h2

/-- Witness for C4 at the concrete `mW` (ancestor signal at index 1). -/
theorem claim_C4_own_only_logs_nothing_witness :
    signalEmitted (some mW) 0 (construct mW false) =
      HandlerOutcome.unexpectedSignal (construct mW false) ∧
    ∃ st', runEmissions mW esW 0 (construct mW false) = some st' ∧
      st'.log = [] := by
  have h := claim_C4_own_only_logs_nothing mW (by decide) ⟨1, by decide⟩
  exact ⟨h.1 0 (construct mW false) (by decide), h.2 esW 0⟩

/-- Witness for C5 at the concrete `mW`, `stW5` (no handle at signal 1). -/
theorem claim_C5_missing_handle_diagnostic_witness :
    signalEmitted (some mW) 7 stW5 = HandlerOutcome.unexpectedSignal stW5 :=
  claim_C5_missing_handle_diagnostic mW 7 stW5 1 (by decide) (by decide)
    (by decide) (by decide)

/-- Witness for C6 at the concrete `mW`, signal 4. -/
theorem claim_C6_idempotent_draining_witness :
    ∃ st1 st2,
      dispatchEmission mW { signalIndex := 4, args := [QVariant.vBool true] }
        2 (construct mW true) = HandlerOutcome.ok st1 ∧
      qmapValue st1.spies 4 = some [] ∧
      dispatchEmission mW { signalIndex := 4, args := [] } 3 st1 =
        HandlerOutcome.ok st2 ∧
      st1.log = (construct mW true).log ++
        [{ signal := 4, timestamp := 2
           parameters := [QVariant.vBool true] }] ∧
      st2.log = (construct mW true).log ++
        [{ signal := 4, timestamp := 2
           parameters := [QVariant.vBool true] },
         { signal := 4, timestamp := 3, parameters := [] }] :=
  claim_C6_idempotent_draining mW (construct mW true) 4
    [QVariant.vBool true] [] 2 3 (by decide) (by decide) (by decide)
    (by decide)

/-- Witness for C7 at the concrete `mW`, `stW`. -/
theorem claim_C7_argument_signature_invariant_witness :
    LogTyped mW stW'.log :=
  claim_C7_argument_signature_invariant mW 5 stW stW' (by decide)
    (by decide) (by decide)

/-- Witness for C8 at the concrete `mW`, `stW`. -/
theorem claim_C8_log_append_only_witness :
    (construct mW true).log = [] ∧ ∃ r, stW'.log = stW.log ++ [r] := by
  have h := claim_C8_log_append_only mW true
  exact ⟨h.1, h.2.2 (some mW) 5 stW stW' (by decide)⟩

/-- Witness for C9 at the concrete `mW` with all handles drained. -/
theorem claim_C9_oob_iff_no_pending_witness :
    signalEmitted (some mW) 0 (construct mW true) = HandlerOutcome.oob :=
  (claim_C9_oob_iff_no_pending mW 0 (construct mW true) (by decide)
    (by decide)).mpr
    (fun j s h => spiesEmpty_lookup (construct mW true).spies j s
      (construct_spiesEmpty mW true) h)

/-- Witness for C10 at the concrete `mW`, `stW`. -/
theorem claim_C10_null_sender_asserts_witness :
    signalEmitted none 0 stW = HandlerOutcome.fatal ∧
    signalEmitted (some mW) 0 stW ≠ HandlerOutcome.fatal := by
  have h := claim_C10_null_sender_asserts mW
  exact ⟨h.1 0 stW, h.2.1 0 stW⟩

end QSI
